import Mathlib

/-!
Shallow embedding of the two-pass resonance sweep engine of
`Ultrasonic_Transducer_Scanner_Version2.ino`.

Modelling conventions:
* `unsigned int` frequencies become `ℕ` (the reachable values, at most a few
  hundred kHz, are far below any wrap-around boundary, so no modular
  reduction is needed).
* `float` amplitudes become `ℚ`; the literals `0.08f`, `0.12f`, `0.01f`
  become the rationals `8/100`, `12/100`, `1/100`.
* The hardware measurement `measureCurrent()` is an environment parameter:
  `env : ℕ → Meas` yields the `(lastIpk, lastIpp)` pair produced by the
  `k`-th measurement burst since the sweep started; the state carries the
  burst counter.  The sampling loops (`SAMPLES_PER_FREQ` bursts summed and
  divided) are reproduced on top of it.
* Timing (`millis`, `STABILIZE_DELAY` gating) is abstracted: calls of the
  process functions that occur before the stabilization interval has
  elapsed leave the state untouched in the source, so one modelled `tick`
  is one effective (gated) call.  Display and PWM output are side effects
  with no feedback into the algorithm and are dropped, except that the
  frequencies handed to `setFrequency` during the fine phase are recorded
  in the ghost field `fineSetLog`, and every averaged amplitude sample is
  recorded (with its frequency) in the ghost field `sampleLog`.
-/

set_option maxRecDepth 8000

namespace UTS

/-- Sweep parameter `FREQ_STEP` (coarse step, Hz). -/
def FREQ_STEP : ℕ := 50

/-- Sweep parameter `SAMPLES_PER_FREQ` (averaged bursts per coarse step). -/
def SAMPLES_PER_FREQ : ℕ := 20

/-- Sweep parameter `FINE_WINDOW` (half-width of a fine window, Hz). -/
def FINE_WINDOW : ℕ := 1000

/-- Sweep parameter `FINE_STEP` (fine step, Hz). -/
def FINE_STEP : ℕ := 10

/-- Sweep parameter `FINE_SAMPLES_PER_FREQ` (averaged bursts per fine step). -/
def FINE_SAMPLES_PER_FREQ : ℕ := 20

/-- Capacity bound `MAX_FINE_TARGETS`. -/
def MAX_FINE_TARGETS : ℕ := 3

/-- Capacity bound `MAX_DATA_POINTS` of the stored coarse curve. -/
def MAX_DATA_POINTS : ℕ := 70

/-- Result of one `measureCurrent()` burst: the derived peak current
`lastIpk` and peak-to-peak current `lastIpp`. -/
structure Meas where
  ipk : ℚ
  ipp : ℚ
deriving DecidableEq

/-- The struct `FineTarget` of the source. -/
structure FineTarget where
  center : ℕ
  bestFreq : ℕ
  bestAmp : ℚ
  used : Bool
deriving DecidableEq

/-- The record `Peak` local to `prepareFineTargets`. -/
structure Peak where
  idx : ℕ
  amp : ℚ
  f : ℕ
deriving DecidableEq

/-- The module-level mutable state of the scanner (the globals of the
sketch that the sweep engine reads or writes), plus two ghost logs. -/
structure SweepState where
  startFreq : ℕ
  endFreq : ℕ
  maxAmplitude : ℚ
  currAmplitude : ℚ
  resonantFreq : ℕ
  resonantIpk : ℚ
  resonantIpp : ℚ
  bestHarmFreq : ℕ
  bestHarmAmp : ℚ
  /-- the parallel arrays `freqs[]` / `amplitudes[]` up to `dataPoints`. -/
  curve : List (ℕ × ℚ)
  totalSteps : ℕ
  stepIndex : ℕ
  storeEvery : ℕ
  currentTestFreq : ℕ
  coarsePhase : Bool
  finePhase : Bool
  testRunning : Bool
  testComplete : Bool
  /-- `fineTargets[]` up to `fineTargetCount`. -/
  fineTargets : List FineTarget
  currentFineIndex : ℕ
  fineSweepFreq : ℕ
  fineSweepEnd : ℕ
  fineSweepStep : ℕ
  lastIpp : ℚ
  lastIpk : ℚ
  /-- ghost: number of measurement bursts consumed so far (indexes `env`). -/
  burstCount : ℕ
  /-- ghost: the frequency of every averaged amplitude sample taken. -/
  sampleLog : List ℕ
  /-- ghost: every frequency handed to `setFrequency` by the fine phase. -/
  fineSetLog : List ℕ
deriving DecidableEq

/-- Average of `n` consecutive burst `ipk` readings starting at burst
counter `c` (the `sumAmplitude / SAMPLES_PER_FREQ` loops). -/
def avgIpk (env : ℕ → Meas) (c n : ℕ) : ℚ :=
  ((List.range n).foldl (fun a i => a + (env (c + i)).ipk) 0) / (n : ℚ)

/-- The function `startTwoPassTest()` (its state-resetting part; the
display output is dropped). -/
def startTwoPassTest (startF endF : ℕ) : SweepState :=
  let totalSteps : ℕ :=
    if endF > startF ∧ FREQ_STEP > 0 then (endF - startF) / FREQ_STEP + 1 else 1
  let storeEvery0 : ℕ := (totalSteps + (MAX_DATA_POINTS - 1)) / MAX_DATA_POINTS
  let storeEvery : ℕ := if storeEvery0 < 1 then 1 else storeEvery0
  { startFreq := startF
    endFreq := endF
    maxAmplitude := 0
    currAmplitude := 0
    resonantFreq := 0
    resonantIpk := 0
    resonantIpp := 0
    bestHarmFreq := 0
    bestHarmAmp := 0
    curve := []
    totalSteps := totalSteps
    stepIndex := 0
    storeEvery := storeEvery
    currentTestFreq := startF
    coarsePhase := true
    finePhase := false
    testRunning := true
    testComplete := false
    fineTargets := []
    currentFineIndex := 0
    fineSweepFreq := 0
    fineSweepEnd := 0
    fineSweepStep := FINE_STEP
    lastIpp := 0
    lastIpk := 0
    burstCount := 0
    sampleLog := []
    fineSetLog := [] }

/-- Strict-local-maximum detection shared by `prepareFineTargets` (with its
8% threshold) and `computeBestHarmonicFromCoarse` (with its 12% threshold):
the loop `for i = 1 .. dataPoints-2` keeping points strictly above both
neighbours and at least `minAmp`, capped at `MAX_DATA_POINTS` entries. -/
def detectPeaks (curve : List (ℕ × ℚ)) (minAmp : ℚ) : List Peak :=
  ((List.range curve.length).filterMap (fun i =>
    if 1 ≤ i ∧ i + 1 < curve.length then
      let a := (curve.getD i (0, 0)).2
      let ap := (curve.getD (i - 1) (0, 0)).2
      let an := (curve.getD (i + 1) (0, 0)).2
      if a > ap ∧ a > an ∧ a ≥ minAmp then
        some ⟨i, a, (curve.getD i (0, 0)).1⟩
      else none
    else none)).take MAX_DATA_POINTS

/-- Index of the first element of maximal amplitude (the inner
`for j` scan of the selection sort: `best` moves only on strictly
greater amplitude, so the first maximum wins). -/
def bestIdxFrom (l : List Peak) : ℕ :=
  match l with
  | [] => 0
  | x :: xs =>
    (xs.foldl
      (fun (st : ℕ × ℕ × ℚ) pk =>
        if pk.amp > st.2.2 then (st.2.1, st.2.1 + 1, pk.amp)
        else (st.1, st.2.1 + 1, st.2.2))
      (0, 1, x.amp)).1

/-- The selection sort of `prepareFineTargets` (descending amplitude):
each outer iteration swaps the first maximum of the remainder into the
front position, displacing the old front element into the maximum's slot. -/
def selSortPeaks (l : List Peak) : List Peak :=
  match l with
  | [] => []
  | x :: xs =>
    let b := bestIdxFrom (x :: xs)
    if b = 0 then x :: selSortPeaks xs
    else ((x :: xs).getD b x) :: selSortPeaks (xs.set (b - 1) x)
termination_by l.length
decreasing_by
  · simp
  · simp [List.length_set]

/-- The candidate-acceptance loop of `prepareFineTargets`: walk the sorted
peaks, skip any inside the deduplication `window` of the global maximum
`resF` or of an already accepted target, stop at `MAX_FINE_TARGETS`. -/
def acceptTargets (resF window : ℕ) : List Peak → List FineTarget → List FineTarget
  | [], acc => acc
  | pk :: ps, acc =>
    if acc.length < MAX_FINE_TARGETS then
      let f := pk.f
      if f > resF + window ∨ f + window < resF then
        if acc.any (fun t => decide (|(t.center : ℤ) - (f : ℤ)| ≤ (window : ℤ))) then
          acceptTargets resF window ps acc
        else
          acceptTargets resF window ps (acc ++ [⟨f, f, pk.amp, true⟩])
      else acceptTargets resF window ps acc
    else acc

/-- The function `prepareFineTargets()`. -/
def prepareFineTargets (s : SweepState) : SweepState :=
  if s.resonantFreq = 0 ∨ s.curve.length < 3 then { s with fineTargets := [] }
  else
    let minPeakAmp0 := s.maxAmplitude * (8 / 100)
    let minPeakAmp := if minPeakAmp0 < 1 / 100 then (1 : ℚ) / 100 else minPeakAmp0
    let peaks := selSortPeaks (detectPeaks s.curve minPeakAmp)
    let t0 : FineTarget := ⟨s.resonantFreq, s.resonantFreq, s.maxAmplitude, true⟩
    { s with fineTargets := acceptTargets s.resonantFreq (FREQ_STEP * 4) peaks [t0] }

/-- The function `startFineTarget(index)` (the `index < 0` guard of the
source is vacuous for the `ℕ` index). -/
def startFineTarget (s : SweepState) (index : ℕ) : SweepState :=
  if index < s.fineTargets.length then
    let t : FineTarget := s.fineTargets.getD index ⟨0, 0, 0, false⟩
    let center := t.center
    let startF := if center > FINE_WINDOW then center - FINE_WINDOW else s.startFreq
    let endF0 := center + FINE_WINDOW
    let endF := if endF0 > s.endFreq then s.endFreq else endF0
    { s with
      fineSweepFreq := startF
      fineSweepEnd := endF
      fineSweepStep := FINE_STEP
      fineTargets := s.fineTargets.set index { t with bestFreq := center, bestAmp := 0 }
      fineSetLog := s.fineSetLog ++ [startF] }
  else s

/-- One iteration of the ratio test of `computeBestHarmonicFromCoarse` for
one candidate `(f, a)`: the up-ratio branch, then the down-ratio branch
against the possibly already updated best. -/
def coarseRatioStep (resF : ℕ) (tol : ℚ) (acc : ℕ × ℚ) (pt : ℕ × ℚ) : ℕ × ℚ :=
  let f := pt.1
  let a := pt.2
  let rup : ℚ := (f : ℚ) / (resF : ℚ)
  let nUp : ℤ := round rup
  let acc1 := if 2 ≤ nUp ∧ |rup - (nUp : ℚ)| ≤ tol ∧ a > acc.2 then (f, a) else acc
  let rdn : ℚ := (resF : ℚ) / (f : ℚ)
  let nDn : ℤ := round rdn
  if 2 ≤ nDn ∧ |rdn - (nDn : ℚ)| ≤ tol ∧ a > acc1.2 then (f, a) else acc1

/-- The function `computeBestHarmonicFromCoarse()`. -/
def computeBestHarmonicFromCoarse (s : SweepState) : SweepState :=
  let s0 : SweepState := { s with bestHarmFreq := 0, bestHarmAmp := 0 }
  if s0.resonantFreq = 0 ∨ s0.curve.length < 3 then s0
  else
    let minPeakAmp0 := s0.maxAmplitude * (12 / 100)
    let minPeakAmp := if minPeakAmp0 < 1 / 100 then (1 : ℚ) / 100 else minPeakAmp0
    let peaks := detectPeaks s0.curve minPeakAmp
    let r : ℕ × ℚ := peaks.foldl
      (fun acc pk => coarseRatioStep s0.resonantFreq (12 / 100) acc (pk.f, pk.amp))
      ((0 : ℕ), (0 : ℚ))
    let s1 : SweepState := { s0 with bestHarmFreq := r.1, bestHarmAmp := r.2 }
    if s1.bestHarmFreq = 0 then
      let rb : ℕ × ℚ := s1.curve.foldl
        (fun (acc : ℕ × ℚ) pt =>
          if (pt.1 > s1.resonantFreq + FREQ_STEP * 3 ∨ pt.1 + FREQ_STEP * 3 < s1.resonantFreq)
              ∧ pt.2 > acc.2
          then (pt.1, pt.2) else acc) (0, 0)
      if rb.1 ≠ 0 then { s1 with bestHarmFreq := rb.1, bestHarmAmp := rb.2 } else s1
    else s1

/-- One iteration of the target loop of `computeBestHarmonicFromFine`:
skip empty or fundamental-adjacent targets, then up-ratio take, down-ratio
take, and the unconditional highest-amplitude take, each with `continue`
semantics. -/
def fineHarmStep (resF : ℕ) (acc : ℕ × ℚ) (t : FineTarget) : ℕ × ℚ :=
  let f := t.bestFreq
  let a := t.bestAmp
  if f = 0 ∨ a ≤ 0 then acc
  else if |(f : ℤ) - (resF : ℤ)| ≤ (FINE_STEP : ℤ) then acc
  else
    let rup : ℚ := (f : ℚ) / (resF : ℚ)
    let nUp : ℤ := round rup
    if 2 ≤ nUp ∧ |rup - (nUp : ℚ)| ≤ 8 / 100 ∧ a > acc.2 then (f, a)
    else
      let rdn : ℚ := (resF : ℚ) / (f : ℚ)
      let nDn : ℤ := round rdn
      if 2 ≤ nDn ∧ |rdn - (nDn : ℚ)| ≤ 8 / 100 ∧ a > acc.2 then (f, a)
      else if a > acc.2 then (f, a) else acc

/-- The function `computeBestHarmonicFromFine()` (falling back to
`computeBestHarmonicFromCoarse()` when no fine target qualifies). -/
def computeBestHarmonicFromFine (s : SweepState) : SweepState :=
  let s0 : SweepState := { s with bestHarmFreq := 0, bestHarmAmp := 0 }
  if s0.resonantFreq = 0 then s0
  else
    let r : ℕ × ℚ := s0.fineTargets.foldl (fineHarmStep s0.resonantFreq) ((0 : ℕ), (0 : ℚ))
    let s1 : SweepState := { s0 with bestHarmFreq := r.1, bestHarmAmp := r.2 }
    if s1.bestHarmFreq = 0 then computeBestHarmonicFromCoarse s1 else s1

/-- One effective (interval-gated) call of `processCoarseSweep()`. -/
def processCoarseSweep (env : ℕ → Meas) (s : SweepState) : SweepState :=
  if s.currentTestFreq > s.endFreq then
    let s1 : SweepState := prepareFineTargets { s with coarsePhase := false }
    if s1.fineTargets.length > 0 then
      let s2 : SweepState := startFineTarget { s1 with currentFineIndex := 0 } 0
      { s2 with finePhase := true }
    else
      let s2 : SweepState := computeBestHarmonicFromCoarse s1
      { s2 with testRunning := false, testComplete := true }
  else
    let a := avgIpk env s.burstCount SAMPLES_PER_FREQ
    let s1 : SweepState := { s with
      currAmplitude := a
      lastIpk := (env (s.burstCount + SAMPLES_PER_FREQ - 1)).ipk
      lastIpp := (env (s.burstCount + SAMPLES_PER_FREQ - 1)).ipp
      burstCount := s.burstCount + SAMPLES_PER_FREQ
      sampleLog := s.sampleLog ++ [s.currentTestFreq] }
    let s2 : SweepState :=
      if a > s1.maxAmplitude then
        { s1 with
          maxAmplitude := a
          resonantFreq := s1.currentTestFreq
          resonantIpk := a
          resonantIpp := s1.lastIpp }
      else s1
    let s3 : SweepState :=
      if s2.curve.length < MAX_DATA_POINTS ∧
          (s2.stepIndex % s2.storeEvery = 0 ∨ s2.curve.length = 0 ∨
            s2.currentTestFreq ≥ s2.endFreq) then
        { s2 with curve := s2.curve ++ [(s2.currentTestFreq, a)] }
      else s2
    { s3 with
      currentTestFreq := s3.currentTestFreq + FREQ_STEP
      stepIndex := s3.stepIndex + 1 }

/-- One effective (interval-gated) call of `processFineSweep()`. -/
def processFineSweep (env : ℕ → Meas) (s : SweepState) : SweepState :=
  if s.currentFineIndex ≥ s.fineTargets.length then
    let s1 : SweepState := computeBestHarmonicFromFine { s with finePhase := false }
    { s1 with testRunning := false, testComplete := true }
  else
    let a := avgIpk env s.burstCount FINE_SAMPLES_PER_FREQ
    let s1 : SweepState := { s with
      lastIpk := (env (s.burstCount + FINE_SAMPLES_PER_FREQ - 1)).ipk
      lastIpp := (env (s.burstCount + FINE_SAMPLES_PER_FREQ - 1)).ipp
      burstCount := s.burstCount + FINE_SAMPLES_PER_FREQ
      sampleLog := s.sampleLog ++ [s.fineSweepFreq] }
    let t : FineTarget := s1.fineTargets.getD s1.currentFineIndex ⟨0, 0, 0, false⟩
    let s2 : SweepState :=
      if a > t.bestAmp then
        let s1' : SweepState := { s1 with
          fineTargets :=
            s1.fineTargets.set s1.currentFineIndex
              { t with bestAmp := a, bestFreq := s1.fineSweepFreq } }
        if a > s1'.maxAmplitude then
          { s1' with
            maxAmplitude := a
            resonantFreq := s1'.fineSweepFreq
            resonantIpk := a
            resonantIpp := s1'.lastIpp }
        else s1'
      else s1
    if s2.fineSweepFreq + s2.fineSweepStep > s2.fineSweepEnd then
      let s3 : SweepState := { s2 with currentFineIndex := s2.currentFineIndex + 1 }
      if s3.currentFineIndex < s3.fineTargets.length then
        startFineTarget s3 s3.currentFineIndex
      else s3
    else
      { s2 with
        fineSweepFreq := s2.fineSweepFreq + s2.fineSweepStep
        fineSetLog := s2.fineSetLog ++ [s2.fineSweepFreq + s2.fineSweepStep] }

/-- One pass of the sweep part of `loop()`: dispatch to the coarse or fine
process function while a test is running. -/
def tick (env : ℕ → Meas) (s : SweepState) : SweepState :=
  if s.testRunning then
    if s.coarsePhase then processCoarseSweep env s
    else if s.finePhase then processFineSweep env s
    else s
  else s

/-- Iterate `tick` a given number of times. -/
def run (env : ℕ → Meas) (n : ℕ) (s : SweepState) : SweepState :=
  match n with
  | 0 => s
  | Nat.succ m => run env m (tick env s)

/-- Environment in which every measurement burst reads zero current. -/
def envZero : ℕ → Meas := fun _ => ⟨0, 0⟩

/-- Environment in which every burst reads the constant amplitude `1/200`
(equal everywhere and below the `0.01` noise floor of the peak detectors). -/
def envFlat : ℕ → Meas := fun _ => ⟨1 / 200, 1 / 200⟩

/-- Environment whose first 20 bursts (the first averaged sample) read
amplitude 1 and all later bursts read 0: the coarse maximum lands on the
very first frequency of the band. -/
def envPeakFirst : ℕ → Meas := fun n => if n < 20 then ⟨1, 1⟩ else ⟨0, 0⟩

/-- Freshly initialised state used as a base for building concrete
classifier inputs. -/
def blank : SweepState := startTwoPassTest 0 0

/-- Concrete classifier input: fundamental 100 Hz with refined targets at
200 Hz (exact ratio 2, amplitude 1/2) and 150 Hz (ratio 1.5, satisfies no
integer ratio, amplitude 4/5). -/
def sC3 : SweepState := { blank with
  resonantFreq := 100
  maxAmplitude := 1
  fineTargets :=
    [⟨100, 100, 1, true⟩, ⟨200, 200, 1 / 2, true⟩, ⟨150, 150, 4 / 5, true⟩] }

/-- Concrete classifier input: fundamental 100 Hz whose coarse curve has a
strict local maximum at 200 Hz — inside the exclusion window
`FREQ_STEP * 3 = 150` around the fundamental, yet at exact ratio 2. -/
def sC4 : SweepState := { blank with
  resonantFreq := 100
  maxAmplitude := 1
  curve := [(50, 1 / 10), (200, 1 / 2), (300, 1 / 10)] }

/-- State reached after four effective ticks of a sweep of the band
[2000, 2100] under `envPeakFirst`: the coarse phase (three samples) is done
and `startFineTarget 0` has just run for target 0 centred at 2000 Hz. -/
def S4 : SweepState := run envPeakFirst 4 (startTwoPassTest 2000 2100)

/-- Concrete classifier input with a fundamental (700 Hz) above the 600 Hz
threshold of the amended exclusion-window claim. -/
def sW : SweepState := { blank with
  resonantFreq := 700
  maxAmplitude := 1
  curve := [(650, 1 / 10), (1400, 1 / 2), (2000, 1 / 10)]
  fineTargets := [⟨700, 700, 1, true⟩, ⟨1400, 1400, 1 / 2, true⟩] }

/-- The integer-ratio tolerance test of the harmonic classifiers: candidate
`f` is within `tol` of an integer multiple (`n ≥ 2`) of the fundamental
`resF`, upward or downward. -/
def ratioOk (resF f : ℕ) (tol : ℚ) : Bool :=
  let rup : ℚ := (f : ℚ) / (resF : ℚ)
  let nUp : ℤ := round rup
  let rdn : ℚ := (resF : ℚ) / (f : ℚ)
  let nDn : ℤ := round rdn
  decide ((2 ≤ nUp ∧ |rup - (nUp : ℚ)| ≤ tol) ∨ (2 ≤ nDn ∧ |rdn - (nDn : ℚ)| ≤ tol))

/-- Two fine targets are separated by more than `window` Hz. -/
def FarApart (window : ℕ) (a b : FineTarget) : Prop :=
  (window : ℤ) < |(a.center : ℤ) - (b.center : ℤ)|

/-- Inductive invariant of the sweep state machine, established by
`startTwoPassTest` and preserved by `tick`:
the stored curve respects its capacity, is strictly increasing in
frequency, and stays inside the configured band; during the coarse phase
the current frequency bounds the stored points and the running resonance
lies in the band; fine targets are centred inside the band; the fine
window end is clamped to the band end; and every frequency the fine phase
has handed to the generator is at most the band end. -/
def Inv (s : SweepState) : Prop :=
  s.curve.length ≤ MAX_DATA_POINTS ∧
  List.Chain' (fun a b => a < b) (s.curve.map Prod.fst) ∧
  (∀ f ∈ s.fineSetLog, f ≤ s.endFreq) ∧
  s.fineSweepEnd ≤ s.endFreq ∧
  (∀ t ∈ s.fineTargets, t.center ≤ s.endFreq) ∧
  (s.fineTargets = [] ∨ s.startFreq ≤ s.endFreq) ∧
  (s.coarsePhase = true →
    (∀ p ∈ s.curve, p.1 < s.currentTestFreq ∧ p.1 ≤ s.endFreq) ∧
    (s.resonantFreq = 0 ∨ (s.startFreq ≤ s.resonantFreq ∧ s.resonantFreq ≤ s.endFreq)) ∧
    s.startFreq ≤ s.currentTestFreq)

theorem prepare_shape (s : SweepState) :
    ∃ ts, prepareFineTargets s = { s with fineTargets := ts } := by
  unfold prepareFineTargets
  dsimp only
  split_ifs <;> exact ⟨_, rfl⟩

theorem startFineTarget_shape (s : SweepState) (i : ℕ) :
    ∃ fr fe st ts lg, startFineTarget s i =
      { s with fineSweepFreq := fr, fineSweepEnd := fe, fineSweepStep := st,
               fineTargets := ts, fineSetLog := lg } := by
  unfold startFineTarget
  dsimp only
  split_ifs <;> exact ⟨_, _, _, _, _, rfl⟩

theorem harmCoarse_shape (s : SweepState) :
    ∃ f a, computeBestHarmonicFromCoarse s = { s with bestHarmFreq := f, bestHarmAmp := a } := by
  unfold computeBestHarmonicFromCoarse
  dsimp only
  split_ifs <;> exact ⟨_, _, rfl⟩

theorem harmFine_shape (s : SweepState) :
    ∃ f a, computeBestHarmonicFromFine s = { s with bestHarmFreq := f, bestHarmAmp := a } := by
  unfold computeBestHarmonicFromFine
  dsimp only
  split_ifs with h1 h2
  · exact ⟨_, _, rfl⟩
  · obtain ⟨f, a, hfa⟩ := harmCoarse_shape
      { s with
        bestHarmFreq :=
          (s.fineTargets.foldl (fineHarmStep s.resonantFreq) ((0 : ℕ), (0 : ℚ))).1
        bestHarmAmp :=
          (s.fineTargets.foldl (fineHarmStep s.resonantFreq) ((0 : ℕ), (0 : ℚ))).2 }
    exact ⟨f, a, hfa⟩
  · exact ⟨_, _, rfl⟩

theorem prepare_maxAmplitude (s : SweepState) :
    (prepareFineTargets s).maxAmplitude = s.maxAmplitude := by
  obtain ⟨ts, h⟩ := prepare_shape s
  rw [h]

theorem prepare_resonantFreq (s : SweepState) :
    (prepareFineTargets s).resonantFreq = s.resonantFreq := by
  obtain ⟨ts, h⟩ := prepare_shape s
  rw [h]

theorem startFineTarget_maxAmplitude (s : SweepState) (i : ℕ) :
    (startFineTarget s i).maxAmplitude = s.maxAmplitude := by
  obtain ⟨fr, fe, st, ts, lg, h⟩ := startFineTarget_shape s i
  rw [h]

theorem startFineTarget_resonantFreq (s : SweepState) (i : ℕ) :
    (startFineTarget s i).resonantFreq = s.resonantFreq := by
  obtain ⟨fr, fe, st, ts, lg, h⟩ := startFineTarget_shape s i
  rw [h]

theorem harmCoarse_maxAmplitude (s : SweepState) :
    (computeBestHarmonicFromCoarse s).maxAmplitude = s.maxAmplitude := by
  obtain ⟨f, a, h⟩ := harmCoarse_shape s
  rw [h]

theorem harmCoarse_resonantFreq (s : SweepState) :
    (computeBestHarmonicFromCoarse s).resonantFreq = s.resonantFreq := by
  obtain ⟨f, a, h⟩ := harmCoarse_shape s
  rw [h]

theorem harmFine_maxAmplitude (s : SweepState) :
    (computeBestHarmonicFromFine s).maxAmplitude = s.maxAmplitude := by
  obtain ⟨f, a, h⟩ := harmFine_shape s
  rw [h]

theorem harmFine_resonantFreq (s : SweepState) :
    (computeBestHarmonicFromFine s).resonantFreq = s.resonantFreq := by
  obtain ⟨f, a, h⟩ := harmFine_shape s
  rw [h]

theorem processCoarse_mono (env : ℕ → Meas) (s : SweepState) :
    s.maxAmplitude ≤ (processCoarseSweep env s).maxAmplitude ∧
    ((processCoarseSweep env s).resonantFreq = s.resonantFreq ∨
      s.maxAmplitude < (processCoarseSweep env s).maxAmplitude) := by
  unfold processCoarseSweep
  dsimp only
  split_ifs
  all_goals try simp [startFineTarget_maxAmplitude, startFineTarget_resonantFreq,
    prepare_maxAmplitude, prepare_resonantFreq, harmCoarse_maxAmplitude,
    harmCoarse_resonantFreq]
  all_goals
    first
      | exact ⟨le_refl _, Or.inl rfl⟩
      | (constructor
         · apply le_of_lt
           assumption
         · apply Or.inr
           assumption)

theorem processFine_mono (env : ℕ → Meas) (s : SweepState) :
    s.maxAmplitude ≤ (processFineSweep env s).maxAmplitude ∧
    ((processFineSweep env s).resonantFreq = s.resonantFreq ∨
      s.maxAmplitude < (processFineSweep env s).maxAmplitude) := by
  unfold processFineSweep
  dsimp only
  split_ifs
  all_goals try simp [startFineTarget_maxAmplitude, startFineTarget_resonantFreq,
    harmFine_maxAmplitude, harmFine_resonantFreq]
  all_goals
    first
      | exact ⟨le_refl _, Or.inl rfl⟩
      | (constructor
         · apply le_of_lt
           assumption
         · apply Or.inr
           assumption)

/-- Claim C7: the running global maximum amplitude never decreases across
any effective step of the sweep (coarse or fine phase alike), and the
global resonant frequency changes only when that maximum strictly
increases. -/
theorem scanner_C7_theorem (env : ℕ → Meas) (s : SweepState) :
    s.maxAmplitude ≤ (tick env s).maxAmplitude ∧
    ((tick env s).resonantFreq = s.resonantFreq ∨
      s.maxAmplitude < (tick env s).maxAmplitude) := by
  unfold tick
  split_ifs with hrun hc hf
  · exact processCoarse_mono env s
  · exact processFine_mono env s
  · exact ⟨le_refl _, Or.inl rfl⟩
  · exact ⟨le_refl _, Or.inl rfl⟩

/-- Claim C1 counterexample: with `endFreq = 900 < startFreq = 1000` the
sweep completes, but it takes zero averaged amplitude samples — not the one
sample at `startFreq` that the claim requires. -/
theorem scanner_C1_counterexample :
    (run envZero 2 (startTwoPassTest 1000 900)).testComplete = true ∧
    (run envZero 2 (startTwoPassTest 1000 900)).sampleLog = [] ∧
    ¬(run envZero 2 (startTwoPassTest 1000 900)).sampleLog = [1000] := by
  with_unfolding_all decide

/-- Claim C2 counterexample: sweeping the band [2000, 2100] with the coarse
maximum at 2000 Hz, the fine phase hands 1000 Hz to the generator —
`FINE_WINDOW` below the target centre and 1000 Hz below `startFreq`. -/
theorem scanner_C2_counterexample :
    S4.finePhase = true ∧ S4.startFreq = 2000 ∧
    (1000 : ℕ) ∈ S4.fineSetLog ∧ S4.fineSweepFreq = 1000 ∧ (1000 : ℕ) < 2000 := by
  with_unfolding_all decide

/-- Claim C3 counterexample: with fundamental 100 Hz, the fine target at
200 Hz satisfies the integer-ratio tolerance (`ratioOk ... = true`) but the
classifier reports 150 Hz, which satisfies no integer ratio — the
highest-amplitude eligible candidate wins regardless of the ratio test. -/
theorem scanner_C3_counterexample :
    (computeBestHarmonicFromFine sC3).bestHarmFreq = 150 ∧
    ratioOk 100 200 (8 / 100) = true ∧
    ratioOk 100 150 (8 / 100) = false ∧
    sC3.fineTargets.getD 1 ⟨0, 0, 0, false⟩ = ⟨200, 200, 1 / 2, true⟩ ∧
    (computeBestHarmonicFromFine sC3).bestHarmAmp = 4 / 5 := by
  with_unfolding_all decide

/-- Claim C4 counterexample: with fundamental 100 Hz, the coarse classifier
reports the peak at 200 Hz even though it lies inside the exclusion window
`FREQ_STEP * 3 = 150` around the fundamental (the ratio branch applies no
exclusion window). -/
theorem scanner_C4_counterexample :
    (computeBestHarmonicFromCoarse sC4).bestHarmFreq = 200 ∧
    sC4.resonantFreq = 100 ∧
    ((200 : ℤ) - 100).natAbs ≤ FREQ_STEP * 3 := by
  with_unfolding_all decide

/-- Claim C5 counterexample: a sweep of the band [1000, 1050] under the
flat environment `envFlat` (every measured amplitude equal to `1/200`,
below the `1/100` noise floor) completes without error, but
`resonantFrequency` ends at 1000, not at the sentinel 0: the running
maximum accepts any positive amplitude, floor or no floor. -/
theorem scanner_C5_counterexample :
    (run envFlat 6 (startTwoPassTest 1000 1050)).testComplete = true ∧
    (run envFlat 6 (startTwoPassTest 1000 1050)).resonantFreq = 1000 ∧
    ¬(run envFlat 6 (startTwoPassTest 1000 1050)).resonantFreq = 0 ∧
    (run envFlat 6 (startTwoPassTest 1000 1050)).bestHarmFreq = 0 ∧
    ((1 : ℚ) / 200 < 1 / 100) := by
  with_unfolding_all decide

/-- Claim C8 counterexample: mid-refinement (directly after
`startFineTarget 0`) target 0's recorded best amplitude has been reset to 0
while the global maximum amplitude is 1, so target 0 no longer equals the
global coarse maximum. -/
theorem scanner_C8_counterexample :
    S4.finePhase = true ∧
    (S4.fineTargets.getD 0 ⟨0, 0, 0, false⟩).bestAmp = 0 ∧
    S4.maxAmplitude = 1 ∧
    ¬(S4.fineTargets.getD 0 ⟨0, 0, 0, false⟩).bestAmp = S4.maxAmplitude := by
  with_unfolding_all decide

theorem run_zero (env : ℕ → Meas) (s : SweepState) : run env 0 s = s := rfl

theorem run_succ (env : ℕ → Meas) (n : ℕ) (s : SweepState) :
    run env (n + 1) s = run env n (tick env s) := rfl

theorem run_two (env : ℕ → Meas) (s : SweepState) :
    run env 2 s = tick env (tick env s) := rfl

theorem fineHarmStep_spec (resF : ℕ) (acc : ℕ × ℚ) (t : FineTarget) :
    fineHarmStep resF acc t =
      if ¬(t.bestFreq = 0 ∨ t.bestAmp ≤ 0) ∧
          ¬(|(t.bestFreq : ℤ) - (resF : ℤ)| ≤ (FINE_STEP : ℤ)) ∧
          t.bestAmp > acc.2
      then (t.bestFreq, t.bestAmp) else acc := by
  unfold fineHarmStep
  dsimp only
  split_ifs <;> first | rfl | tauto

/-- Claim C3 amended: in the fine-data harmonic classifier each candidate
replaces the current best exactly when it is eligible (nonzero frequency,
positive amplitude, more than `FINE_STEP` from the fundamental) and has
strictly higher amplitude — whether or not it satisfies an integer ratio.
The reported harmonic is therefore the highest-amplitude eligible
candidate; the integer-ratio test never gates the selection. -/
theorem scanner_C3_theorem (resF : ℕ) (acc : ℕ × ℚ) (t : FineTarget) :
    fineHarmStep resF acc t =
      if ¬(t.bestFreq = 0 ∨ t.bestAmp ≤ 0) ∧
          ¬(|(t.bestFreq : ℤ) - (resF : ℤ)| ≤ (FINE_STEP : ℤ)) ∧
          t.bestAmp > acc.2
      then (t.bestFreq, t.bestAmp) else acc :=
  fineHarmStep_spec resF acc t

theorem acceptTargets_prefix (resF w : ℕ) (ps : List Peak) :
    ∀ acc : List FineTarget, ∃ ext, acceptTargets resF w ps acc = acc ++ ext := by
  induction ps with
  | nil => exact fun acc => ⟨[], by simp [acceptTargets]⟩
  | cons pk ps ih =>
    intro acc
    unfold acceptTargets
    dsimp only
    split_ifs with h1 h2 h3
    · exact ih acc
    · obtain ⟨ext, hext⟩ := ih (acc ++ [⟨pk.f, pk.f, pk.amp, true⟩])
      exact ⟨⟨pk.f, pk.f, pk.amp, true⟩ :: ext, by simp [hext]⟩
    · exact ih acc
    · exact ⟨[], by simp⟩

/-- Claim C8 amended: immediately after target preparation, target 0 holds
the global coarse maximum (centre, best frequency and best amplitude equal
to `resonantFreq` / `maxAmplitude`).  The property holds at preparation
time only: `startFineTarget` resets the target's best amplitude to 0 when
its refinement begins, so it need not persist during refinement. -/
theorem scanner_C8_theorem (s : SweepState) :
    (prepareFineTargets s).fineTargets = [] ∨
    (prepareFineTargets s).fineTargets.headD ⟨0, 0, 0, false⟩ =
      ⟨s.resonantFreq, s.resonantFreq, s.maxAmplitude, true⟩ := by
  have key : ∀ peaks : List Peak,
      (acceptTargets s.resonantFreq (FREQ_STEP * 4) peaks
        [⟨s.resonantFreq, s.resonantFreq, s.maxAmplitude, true⟩]).headD ⟨0, 0, 0, false⟩ =
      (⟨s.resonantFreq, s.resonantFreq, s.maxAmplitude, true⟩ : FineTarget) := by
    intro peaks
    obtain ⟨ext, hext⟩ := acceptTargets_prefix s.resonantFreq (FREQ_STEP * 4) peaks
      [⟨s.resonantFreq, s.resonantFreq, s.maxAmplitude, true⟩]
    rw [hext]
    rfl
  unfold prepareFineTargets
  dsimp only
  split_ifs with h
  · exact Or.inl rfl
  · exact Or.inr (key _)
  · exact Or.inr (key _)

theorem acceptTargets_sep (resF w : ℕ) (ps : List Peak) :
    ∀ acc : List FineTarget, acc.Pairwise (FarApart w) →
      (acceptTargets resF w ps acc).Pairwise (FarApart w) := by
  induction ps with
  | nil =>
    intro acc h
    simpa [acceptTargets] using h
  | cons pk ps ih =>
    intro acc h
    unfold acceptTargets
    dsimp only
    split_ifs with h1 h2 h3
    · exact ih acc h
    · refine ih (acc ++ [⟨pk.f, pk.f, pk.amp, true⟩]) ?_
      rw [List.pairwise_append]
      refine ⟨h, List.pairwise_singleton _ _, ?_⟩
      intro a ha b hb
      rw [List.mem_singleton] at hb
      subst hb
      have hd : ¬(decide (|(a.center : ℤ) - (pk.f : ℤ)| ≤ ((w : ℕ) : ℤ)) = true) := by
        intro hdec
        exact h3 (List.any_eq_true.mpr ⟨a, ha, hdec⟩)
      rw [decide_eq_true_eq] at hd
      exact lt_of_not_le hd
    · exact ih acc h
    · exact h

/-- Claim C9: after target preparation, any two accepted fine targets
(target 0 included) are separated by strictly more than the deduplication
window `FREQ_STEP * 4`. -/
theorem scanner_C9_theorem (s : SweepState) :
    ((prepareFineTargets s).fineTargets).Pairwise (FarApart (FREQ_STEP * 4)) := by
  unfold prepareFineTargets
  dsimp only
  split_ifs with h
  · simp
  · exact acceptTargets_sep _ _ _ _ (List.pairwise_singleton _ _)
  · exact acceptTargets_sep _ _ _ _ (List.pairwise_singleton _ _)

theorem acceptTargets_le (resF w : ℕ) (ps : List Peak) :
    ∀ acc : List FineTarget, acc.length ≤ MAX_FINE_TARGETS →
      (acceptTargets resF w ps acc).length ≤ MAX_FINE_TARGETS := by
  induction ps with
  | nil =>
    intro acc h
    simpa [acceptTargets] using h
  | cons pk ps ih =>
    intro acc h
    unfold acceptTargets
    dsimp only
    split_ifs with h1 h2 h3
    · exact ih acc h
    · refine ih (acc ++ [⟨pk.f, pk.f, pk.amp, true⟩]) ?_
      simpa using h1
    · exact ih acc h
    · exact h

theorem prepare_finePhase (s : SweepState) :
    (prepareFineTargets s).finePhase = s.finePhase := by
  obtain ⟨ts, h⟩ := prepare_shape s
  rw [h]

theorem harmCoarse_finePhase (s : SweepState) :
    (computeBestHarmonicFromCoarse s).finePhase = s.finePhase := by
  obtain ⟨f, a, h⟩ := harmCoarse_shape s
  rw [h]

theorem prepare_targets_congr (s : SweepState) :
    (prepareFineTargets { s with coarsePhase := false }).fineTargets =
      (prepareFineTargets s).fineTargets := by
  unfold prepareFineTargets
  dsimp only
  split_ifs <;> rfl

/-- Claim C10: target preparation yields at most `MAX_FINE_TARGETS`
targets, and at least one exactly when the coarse phase found a resonance
(`resonantFreq` nonzero) and the stored curve has at least 3 points; at
the coarse-to-fine transition the controller enters the fine phase exactly
when preparation produced a target, and otherwise classifies directly from
the coarse curve with the sweep complete. -/
theorem scanner_C10_theorem (env : ℕ → Meas) (s : SweepState)
    (h1 : s.testRunning = true) (h2 : s.coarsePhase = true)
    (h3 : s.finePhase = false) (h4 : s.endFreq < s.currentTestFreq) :
    (prepareFineTargets s).fineTargets.length ≤ MAX_FINE_TARGETS ∧
    ((prepareFineTargets s).fineTargets ≠ [] ↔
      (s.resonantFreq ≠ 0 ∧ 3 ≤ s.curve.length)) ∧
    ((tick env s).finePhase = true ↔ (prepareFineTargets s).fineTargets ≠ []) ∧
    ((tick env s).finePhase = false → (tick env s).testComplete = true) := by
  have hlen : (prepareFineTargets s).fineTargets.length ≤ MAX_FINE_TARGETS := by
    unfold prepareFineTargets
    dsimp only
    split_ifs with h
    · simp
    · exact acceptTargets_le _ _ _ _ (by simp [MAX_FINE_TARGETS])
    · exact acceptTargets_le _ _ _ _ (by simp [MAX_FINE_TARGETS])
  have hne : (prepareFineTargets s).fineTargets ≠ [] ↔
      (s.resonantFreq ≠ 0 ∧ 3 ≤ s.curve.length) := by
    have key : ∀ peaks : List Peak,
        acceptTargets s.resonantFreq (FREQ_STEP * 4) peaks
          [⟨s.resonantFreq, s.resonantFreq, s.maxAmplitude, true⟩] ≠ [] := by
      intro peaks
      obtain ⟨ext, hext⟩ := acceptTargets_prefix s.resonantFreq (FREQ_STEP * 4) peaks
        [⟨s.resonantFreq, s.resonantFreq, s.maxAmplitude, true⟩]
      rw [hext]
      simp
    unfold prepareFineTargets
    dsimp only
    split_ifs with h
    · constructor
      · intro hcon
        exact absurd rfl hcon
      · intro hcon
        rcases h with h | h
        · exact absurd h hcon.1
        · omega
    · constructor
      · intro _
        push_neg at h
        exact ⟨h.1, by omega⟩
      · intro _
        exact key _
    · constructor
      · intro _
        push_neg at h
        exact ⟨h.1, by omega⟩
      · intro _
        exact key _
  refine ⟨hlen, hne, ?_⟩
  unfold tick
  rw [if_pos h1, if_pos h2]
  unfold processCoarseSweep
  rw [if_pos h4]
  dsimp only
  by_cases hT : (prepareFineTargets { s with coarsePhase := false }).fineTargets.length > 0
  · rw [if_pos hT]
    rw [prepare_targets_congr] at hT
    have hne' : (prepareFineTargets s).fineTargets ≠ [] := by
      intro hcon
      rw [hcon] at hT
      simp at hT
    constructor
    · dsimp only
      simp [hne']
    · intro hcon
      dsimp only at hcon
      simp at hcon
  · rw [if_neg hT]
    rw [prepare_targets_congr] at hT
    have hemp : (prepareFineTargets s).fineTargets = [] :=
      List.length_eq_zero.mp (by omega)
    have hfp : (computeBestHarmonicFromCoarse
        (prepareFineTargets { s with coarsePhase := false })).finePhase = false := by
      rw [harmCoarse_finePhase, prepare_finePhase]
      exact h3
    constructor
    · dsimp only
      rw [hfp]
      simp [hemp]
    · intro _
      rfl

/-- Claim C10 witness: a concrete state at the end of a coarse pass
(`startTwoPassTest 5 3`, whose current frequency 5 already exceeds the
band end 3) satisfying the hypotheses of `scanner_C10_theorem`. -/
theorem scanner_C10_witness :
    (startTwoPassTest 5 3).testRunning = true ∧
    (startTwoPassTest 5 3).coarsePhase = true ∧
    (startTwoPassTest 5 3).finePhase = false ∧
    (startTwoPassTest 5 3).endFreq < (startTwoPassTest 5 3).currentTestFreq ∧
    ((prepareFineTargets (startTwoPassTest 5 3)).fineTargets.length ≤ MAX_FINE_TARGETS ∧
     ((prepareFineTargets (startTwoPassTest 5 3)).fineTargets ≠ [] ↔
       ((startTwoPassTest 5 3).resonantFreq ≠ 0 ∧ 3 ≤ (startTwoPassTest 5 3).curve.length)) ∧
     ((tick envZero (startTwoPassTest 5 3)).finePhase = true ↔
       (prepareFineTargets (startTwoPassTest 5 3)).fineTargets ≠ []) ∧
     ((tick envZero (startTwoPassTest 5 3)).finePhase = false →
       (tick envZero (startTwoPassTest 5 3)).testComplete = true)) :=
  ⟨by decide, by decide, by decide, by decide,
    scanner_C10_theorem envZero (startTwoPassTest 5 3)
      (by decide) (by decide) (by decide) (by decide)⟩

theorem tick_notRunning (env : ℕ → Meas) (s : SweepState)
    (h : s.testRunning = false) : tick env s = s := by
  unfold tick
  rw [h]
  simp

/-- Claim C1 amended: for a degenerate band configuration with
`endFreq ≤ startFreq` the sweep always completes without error within two
effective ticks; it takes exactly one averaged amplitude sample (at
`startFreq`) when `endFreq = startFreq`, and zero samples when
`endFreq < startFreq` (the termination guard fires before the first
sample). -/
theorem scanner_C1_theorem (env : ℕ → Meas) (a b : ℕ) (h : b ≤ a) :
    (run env 2 (startTwoPassTest a b)).testComplete = true ∧
    (run env 2 (startTwoPassTest a b)).sampleLog =
      (if b < a then ([] : List ℕ) else [a]) := by
  rw [run_two]
  rcases lt_or_eq_of_le h with hlt | heq
  · rw [if_pos hlt]
    have h1 : tick env (startTwoPassTest a b) =
        { startTwoPassTest a b with
            coarsePhase := false, testRunning := false, testComplete := true } := by
      simp [tick, startTwoPassTest, processCoarseSweep, prepareFineTargets,
        computeBestHarmonicFromCoarse, hlt]
    rw [h1, tick_notRunning env _ rfl]
    exact ⟨rfl, rfl⟩
  · subst heq
    rw [if_neg (lt_irrefl b)]
    have hstep : b < b + FREQ_STEP := by
      simp [FREQ_STEP]
    by_cases hA : (0 : ℚ) < avgIpk env 0 20 <;>
      simp [tick, startTwoPassTest, processCoarseSweep, prepareFineTargets,
        computeBestHarmonicFromCoarse, hA, hstep, lt_irrefl,
        MAX_DATA_POINTS, FREQ_STEP, SAMPLES_PER_FREQ]

/-- Claim C1 witness: the amended claim applied to the single-point band
`[1000, 1000]`: one sample at 1000 Hz and completion. -/
theorem scanner_C1_witness :
    (1000 : ℕ) ≤ 1000 ∧
    ((run envZero 2 (startTwoPassTest 1000 1000)).testComplete = true ∧
     (run envZero 2 (startTwoPassTest 1000 1000)).sampleLog =
       (if (1000 : ℕ) < 1000 then ([] : List ℕ) else [1000])) :=
  ⟨by decide, scanner_C1_theorem envZero 1000 1000 (by decide)⟩

theorem foldl_add_envZero (c : ℕ) :
    ∀ (l : List ℕ) (acc : ℚ),
      l.foldl (fun a i => a + (envZero (c + i)).ipk) acc = acc := by
  intro l
  induction l with
  | nil => intro acc; rfl
  | cons x xs ih =>
    intro acc
    simp only [List.foldl_cons, envZero]
    rw [add_zero]
    exact ih acc

theorem avgIpk_envZero (c n : ℕ) : avgIpk envZero c n = 0 := by
  unfold avgIpk
  rw [foldl_add_envZero]
  simp

theorem prepare_res0 (s : SweepState) (h : s.resonantFreq = 0) :
    prepareFineTargets s = { s with fineTargets := [] } := by
  unfold prepareFineTargets
  dsimp only
  split_ifs with hq
  · rfl
  all_goals exact absurd (Or.inl h) hq

theorem harmCoarse_res0 (s : SweepState) (h : s.resonantFreq = 0) :
    computeBestHarmonicFromCoarse s = { s with bestHarmFreq := 0, bestHarmAmp := 0 } := by
  unfold computeBestHarmonicFromCoarse
  dsimp only
  split_ifs with hq
  · rfl
  all_goals exact absurd (Or.inl h) hq

theorem harmFine_res0 (s : SweepState) (h : s.resonantFreq = 0) :
    computeBestHarmonicFromFine s = { s with bestHarmFreq := 0, bestHarmAmp := 0 } := by
  unfold computeBestHarmonicFromFine
  dsimp only
  split_ifs
  rfl

theorem tick_envZero (s : SweepState)
    (h1 : s.resonantFreq = 0) (h2 : s.maxAmplitude = 0) (h3 : s.bestHarmFreq = 0)
    (h4 : s.fineTargets = []) :
    (tick envZero s).resonantFreq = 0 ∧ (tick envZero s).maxAmplitude = 0 ∧
    (tick envZero s).bestHarmFreq = 0 ∧ (tick envZero s).fineTargets = [] := by
  unfold tick
  by_cases hrun : s.testRunning = true
  case neg =>
    rw [if_neg hrun]
    exact ⟨h1, h2, h3, h4⟩
  rw [if_pos hrun]
  by_cases hc : s.coarsePhase = true
  case neg =>
    rw [if_neg hc]
    by_cases hf : s.finePhase = true
    case neg =>
      rw [if_neg hf]
      exact ⟨h1, h2, h3, h4⟩
    rw [if_pos hf]
    unfold processFineSweep
    dsimp only
    rw [h4]
    rw [if_pos (show s.currentFineIndex ≥ ([] : List FineTarget).length from Nat.zero_le _)]
    rw [harmFine_res0 { s with finePhase := false, fineTargets := [] } h1]
    exact ⟨h1, h2, rfl, rfl⟩
  rw [if_pos hc]
  unfold processCoarseSweep
  dsimp only
  by_cases hend : s.currentTestFreq > s.endFreq
  · rw [if_pos hend]
    rw [prepare_res0 { s with coarsePhase := false } h1]
    dsimp only
    split_ifs with h0
    · exact absurd h0 (by decide)
    · rw [harmCoarse_res0 { s with coarsePhase := false, fineTargets := [] } h1]
      exact ⟨h1, h2, rfl, rfl⟩
  · rw [if_neg hend]
    rw [avgIpk_envZero, h2]
    split_ifs <;>
      first
        | exact ⟨h1, rfl, h3, h4⟩
        | exact absurd (by assumption : (0 : ℚ) < 0) (lt_irrefl 0)

theorem run_envZero (n : ℕ) : ∀ s : SweepState,
    s.resonantFreq = 0 → s.maxAmplitude = 0 → s.bestHarmFreq = 0 → s.fineTargets = [] →
    (run envZero n s).resonantFreq = 0 ∧ (run envZero n s).maxAmplitude = 0 ∧
    (run envZero n s).bestHarmFreq = 0 ∧ (run envZero n s).fineTargets = [] := by
  induction n with
  | zero =>
    intro s h1 h2 h3 h4
    exact ⟨h1, h2, h3, h4⟩
  | succ m ih =>
    intro s h1 h2 h3 h4
    rw [run_succ]
    obtain ⟨g1, g2, g3, g4⟩ := tick_envZero s h1 h2 h3 h4
    exact ih (tick envZero s) g1 g2 g3 g4

/-- Claim C5 amended: for any band and any number of ticks under the
all-zero measurement environment (a flat curve at zero amplitude, the only
flat curve the running maximum rejects, since any positive flat level is
accepted by the strict `>` update), `resonantFrequency`, the running
maximum and `harmonicFrequency` all stay at the sentinel 0, and the run is
total — no exception or crash is possible. -/
theorem scanner_C5_theorem (a b n : ℕ) :
    (run envZero n (startTwoPassTest a b)).resonantFreq = 0 ∧
    (run envZero n (startTwoPassTest a b)).maxAmplitude = 0 ∧
    (run envZero n (startTwoPassTest a b)).bestHarmFreq = 0 :=
  have h := run_envZero n (startTwoPassTest a b) rfl rfl rfl rfl
  ⟨h.1, h.2.1, h.2.2.1⟩

theorem getD_mem {α : Type} (l : List α) (i : ℕ) (d : α) (h : i < l.length) :
    l.getD i d ∈ l := by
  induction l generalizing i with
  | nil => simp at h
  | cons x xs ih =>
    cases i with
    | zero => simp [List.getD]
    | succ j =>
      simp only [List.getD_cons_succ]
      exact List.mem_cons_of_mem x (ih j (by simpa using h))

theorem bestIdxFrom_lt (l : List Peak) (hl : l ≠ []) : bestIdxFrom l < l.length := by
  match l with
  | [] => exact absurd rfl hl
  | x :: xs =>
    unfold bestIdxFrom
    dsimp only
    have key : ∀ (ys : List Peak) (b j : ℕ) (ba : ℚ), b < j →
        (ys.foldl
          (fun (st : ℕ × ℕ × ℚ) pk =>
            if pk.amp > st.2.2 then (st.2.1, st.2.1 + 1, pk.amp)
            else (st.1, st.2.1 + 1, st.2.2))
          (b, j, ba)).1 < j + ys.length := by
      intro ys
      induction ys with
      | nil =>
        intro b j ba hb
        simpa using hb
      | cons y ys ih =>
        intro b j ba hb
        simp only [List.foldl_cons]
        split_ifs with hy
        · have := ih j (j + 1) y.amp (Nat.lt_succ_self j)
          simpa [Nat.add_assoc, Nat.add_comm, Nat.add_left_comm] using this
        · have := ih b (j + 1) ba (Nat.lt_succ_of_lt hb)
          simpa [Nat.add_assoc, Nat.add_comm, Nat.add_left_comm] using this
    have := key xs 0 1 x.amp Nat.one_pos
    simpa [Nat.add_comm] using this

theorem selSortPeaks_subset (n : ℕ) :
    ∀ l : List Peak, l.length ≤ n → ∀ pk ∈ selSortPeaks l, pk ∈ l := by
  induction n with
  | zero =>
    intro l hl pk hpk
    rw [List.length_eq_zero.mp (Nat.le_zero.mp hl)] at hpk ⊢
    simpa [selSortPeaks] using hpk
  | succ m ih =>
    intro l hl pk hpk
    match l with
    | [] => simpa [selSortPeaks] using hpk
    | x :: xs =>
      rw [selSortPeaks] at hpk
      try dsimp only at hpk
      split_ifs at hpk with hb
      · rcases List.mem_cons.mp hpk with h | h
        · exact h ▸ List.mem_cons_self x xs
        · exact List.mem_cons_of_mem x (ih xs (by simpa using hl) pk h)
      · rcases List.mem_cons.mp hpk with h | h
        · subst h
          exact getD_mem (x :: xs) (bestIdxFrom (x :: xs)) x
            (bestIdxFrom_lt (x :: xs) (by simp))
        · have hx := ih (xs.set (bestIdxFrom (x :: xs) - 1) x)
            (by simpa [List.length_set] using hl) pk h
          rcases List.mem_or_eq_of_mem_set hx with h2 | h2
          · exact List.mem_cons_of_mem x h2
          · exact h2 ▸ List.mem_cons_self x xs

theorem detectPeaks_mem (curve : List (ℕ × ℚ)) (m : ℚ) :
    ∀ pk ∈ detectPeaks curve m, ∃ p ∈ curve, pk.f = p.1 := by
  intro pk hpk
  unfold detectPeaks at hpk
  have hpk2 := List.mem_of_mem_take hpk
  obtain ⟨i, hi, hmap⟩ := List.mem_filterMap.mp hpk2
  dsimp only at hmap
  split_ifs at hmap with h1 h2
  · rw [Option.some_inj] at hmap
    refine ⟨curve.getD i (0, 0), getD_mem curve i (0, 0) (by omega), ?_⟩
    rw [← hmap]

theorem acceptTargets_mem (resF w : ℕ) (ps : List Peak) :
    ∀ (acc : List FineTarget) (t : FineTarget), t ∈ acceptTargets resF w ps acc →
      t ∈ acc ∨ ∃ pk ∈ ps, t = ⟨pk.f, pk.f, pk.amp, true⟩ := by
  induction ps with
  | nil =>
    intro acc t ht
    exact Or.inl (by simpa [acceptTargets] using ht)
  | cons pk ps ih =>
    intro acc t ht
    rw [acceptTargets] at ht
    dsimp only at ht
    split_ifs at ht with h1 h2 h3
    · rcases ih acc t ht with h | ⟨pk2, hp2, he⟩
      · exact Or.inl h
      · exact Or.inr ⟨pk2, List.mem_cons_of_mem pk hp2, he⟩
    · rcases ih (acc ++ [⟨pk.f, pk.f, pk.amp, true⟩]) t ht with h | ⟨pk2, hp2, he⟩
      · rcases List.mem_append.mp h with h | h
        · exact Or.inl h
        · exact Or.inr ⟨pk, List.mem_cons_self pk ps, by simpa using h⟩
      · exact Or.inr ⟨pk2, List.mem_cons_of_mem pk hp2, he⟩
    · rcases ih acc t ht with h | ⟨pk2, hp2, he⟩
      · exact Or.inl h
      · exact Or.inr ⟨pk2, List.mem_cons_of_mem pk hp2, he⟩
    · exact Or.inl ht

theorem prepare_centers_le (s : SweepState)
    (hres : s.resonantFreq ≤ s.endFreq)
    (hcurve : ∀ p ∈ s.curve, p.1 ≤ s.endFreq) :
    ∀ t ∈ (prepareFineTargets s).fineTargets, t.center ≤ s.endFreq := by
  have key : ∀ m : ℚ, ∀ t ∈ acceptTargets s.resonantFreq (FREQ_STEP * 4)
      (selSortPeaks (detectPeaks s.curve m))
      [⟨s.resonantFreq, s.resonantFreq, s.maxAmplitude, true⟩], t.center ≤ s.endFreq := by
    intro m t ht
    rcases acceptTargets_mem _ _ _ _ t ht with h | ⟨pk, hpk, he⟩
    · rw [List.mem_singleton] at h
      rw [h]
      exact hres
    · have hdet := selSortPeaks_subset (detectPeaks s.curve m).length _ (le_refl _) pk hpk
      obtain ⟨p, hp, hf⟩ := detectPeaks_mem s.curve m pk hdet
      rw [he]
      dsimp only
      rw [hf]
      exact hcurve p hp
  intro t ht
  unfold prepareFineTargets at ht
  dsimp only at ht
  split_ifs at ht with h1 h2
  · simp at ht
  · exact key _ t ht
  · exact key _ t ht

theorem prepare_nonempty_start_le (s : SweepState)
    (hres : s.resonantFreq = 0 ∨ (s.startFreq ≤ s.resonantFreq ∧ s.resonantFreq ≤ s.endFreq)) :
    (prepareFineTargets s).fineTargets ≠ [] → s.startFreq ≤ s.endFreq := by
  intro hne
  unfold prepareFineTargets at hne
  dsimp only at hne
  split_ifs at hne with h1
  · exact absurd rfl hne
  all_goals
    rcases hres with h | h
  · exact absurd (Or.inl h) h1
  · exact le_trans h.1 h.2
  · exact absurd (Or.inl h) h1
  · exact le_trans h.1 h.2

theorem inv_startFineTarget (s : SweepState) (i : ℕ) (hInv : Inv s) :
    Inv (startFineTarget s i) := by
  obtain ⟨hlen, hchain, hlog, hswe, hcen, hse, hco⟩ := hInv
  unfold startFineTarget
  by_cases hi : i < s.fineTargets.length
  case neg =>
    rw [if_neg hi]
    exact ⟨hlen, hchain, hlog, hswe, hcen, hse, hco⟩
  rw [if_pos hi]
  dsimp only
  have hcenter : (s.fineTargets.getD i ⟨0, 0, 0, false⟩).center ≤ s.endFreq :=
    hcen _ (getD_mem _ _ _ hi)
  have hstart : s.startFreq ≤ s.endFreq := by
    rcases hse with h | h
    · rw [h] at hi
      simp at hi
    · exact h
  refine ⟨hlen, hchain, ?_, ?_, ?_, Or.inr hstart, hco⟩
  · intro f hf
    rcases List.mem_append.mp hf with h | h
    · exact hlog f h
    · rw [List.mem_singleton] at h
      subst h
      split_ifs <;> (try dsimp only) <;> omega
  · split_ifs <;> (try dsimp only) <;> omega
  · intro t ht
    rcases List.mem_or_eq_of_mem_set ht with h | h
    · exact hcen t h
    · rw [h]
      exact hcenter

theorem inv_processFine (env : ℕ → Meas) (s : SweepState)
    (hcf : s.coarsePhase = false) (hInv : Inv s) : Inv (processFineSweep env s) := by
  obtain ⟨hlen, hchain, hlog, hswe, hcen, hse, hco⟩ := hInv
  unfold processFineSweep
  by_cases hidx : s.currentFineIndex ≥ s.fineTargets.length
  case pos =>
    rw [if_pos hidx]
    obtain ⟨f, a, hsh⟩ := harmFine_shape { s with finePhase := false }
    rw [hsh]
    exact ⟨hlen, hchain, hlog, hswe, hcen, hse, hco⟩
  rw [if_neg hidx]
  push_neg at hidx
  have hne : s.fineTargets ≠ [] := by
    intro hcon
    rw [hcon] at hidx
    simp at hidx
  have hstart : s.startFreq ≤ s.endFreq := by
    rcases hse with h | h
    · exact absurd h hne
    · exact h
  have hvacuous : ¬(s.coarsePhase = true) := by
    rw [hcf]
    simp
  have hsetcen : ∀ a' : ℚ, ∀ t ∈ s.fineTargets.set s.currentFineIndex
      { s.fineTargets.getD s.currentFineIndex ⟨0, 0, 0, false⟩ with
        bestAmp := a', bestFreq := s.fineSweepFreq }, t.center ≤ s.endFreq := by
    intro a' t ht
    rcases List.mem_or_eq_of_mem_set ht with h | h
    · exact hcen t h
    · rw [h]
      dsimp only
      exact hcen _ (getD_mem _ _ _ hidx)
  have hsetne : ∀ a' : ℚ, s.fineTargets.set s.currentFineIndex
      { s.fineTargets.getD s.currentFineIndex ⟨0, 0, 0, false⟩ with
        bestAmp := a', bestFreq := s.fineSweepFreq } = [] ∨ s.startFreq ≤ s.endFreq :=
    fun a' => Or.inr hstart
  dsimp only
  by_cases hup : avgIpk env s.burstCount FINE_SAMPLES_PER_FREQ >
      (s.fineTargets.getD s.currentFineIndex ⟨0, 0, 0, false⟩).bestAmp
  · rw [if_pos hup]
    by_cases hmax : avgIpk env s.burstCount FINE_SAMPLES_PER_FREQ > s.maxAmplitude
    · rw [if_pos hmax]
      dsimp only
      split_ifs with hadv hnext
      · exact inv_startFineTarget _ _
          ⟨hlen, hchain, hlog, hswe, hsetcen _, hsetne _, fun hcp => absurd hcp hvacuous⟩
      · exact ⟨hlen, hchain, hlog, hswe, hsetcen _, hsetne _, fun hcp => absurd hcp hvacuous⟩
      · refine ⟨hlen, hchain, ?_, hswe, hsetcen _, hsetne _, fun hcp => absurd hcp hvacuous⟩
        intro f hf
        rcases List.mem_append.mp hf with h | h
        · exact hlog f h
        · rw [List.mem_singleton] at h
          subst h
          exact le_trans (le_of_not_lt hadv) hswe
    · rw [if_neg hmax]
      dsimp only
      split_ifs with hadv hnext
      · exact inv_startFineTarget _ _
          ⟨hlen, hchain, hlog, hswe, hsetcen _, hsetne _, fun hcp => absurd hcp hvacuous⟩
      · exact ⟨hlen, hchain, hlog, hswe, hsetcen _, hsetne _, fun hcp => absurd hcp hvacuous⟩
      · refine ⟨hlen, hchain, ?_, hswe, hsetcen _, hsetne _, fun hcp => absurd hcp hvacuous⟩
        intro f hf
        rcases List.mem_append.mp hf with h | h
        · exact hlog f h
        · rw [List.mem_singleton] at h
          subst h
          exact le_trans (le_of_not_lt hadv) hswe
  · rw [if_neg hup]
    dsimp only
    split_ifs with hadv hnext
    · exact inv_startFineTarget _ _
        ⟨hlen, hchain, hlog, hswe, hcen, Or.inr hstart, fun hcp => absurd hcp hvacuous⟩
    · exact ⟨hlen, hchain, hlog, hswe, hcen, Or.inr hstart, fun hcp => absurd hcp hvacuous⟩
    · refine ⟨hlen, hchain, ?_, hswe, hcen, Or.inr hstart, fun hcp => absurd hcp hvacuous⟩
      intro f hf
      rcases List.mem_append.mp hf with h | h
      · exact hlog f h
      · rw [List.mem_singleton] at h
        subst h
        exact le_trans (le_of_not_lt hadv) hswe

theorem inv_processCoarse (env : ℕ → Meas) (s : SweepState)
    (hc : s.coarsePhase = true) (hInv : Inv s) : Inv (processCoarseSweep env s) := by
  obtain ⟨hlen, hchain, hlog, hswe, hcen, hse, hco⟩ := hInv
  obtain ⟨hltcurr, hres, hstartcurr⟩ := hco hc
  unfold processCoarseSweep
  dsimp only
  by_cases hend : s.currentTestFreq > s.endFreq
  · rw [if_pos hend]
    have hInv1 : Inv (prepareFineTargets { s with coarsePhase := false }) := by
      have hcen1 := prepare_centers_le { s with coarsePhase := false }
        (by
          rcases hres with h | h
          · rw [h]
            exact Nat.zero_le _
          · exact h.2)
        (fun p hp2 => (hltcurr p hp2).2)
      have hne1 := prepare_nonempty_start_le { s with coarsePhase := false } hres
      obtain ⟨ts, hp⟩ := prepare_shape { s with coarsePhase := false }
      rw [hp] at hcen1 hne1 ⊢
      refine ⟨hlen, hchain, hlog, hswe, hcen1, ?_, ?_⟩
      · by_cases hts : ts = []
        · exact Or.inl hts
        · exact Or.inr (hne1 hts)
      · intro hcp
        exact absurd hcp (by simp)
    by_cases hT : (prepareFineTargets { s with coarsePhase := false }).fineTargets.length > 0
    · rw [if_pos hT]
      exact inv_startFineTarget _ 0 hInv1
    · rw [if_neg hT]
      obtain ⟨f, a, hsh⟩ := harmCoarse_shape (prepareFineTargets { s with coarsePhase := false })
      rw [hsh]
      exact hInv1
  · rw [if_neg hend]
    push_neg at hend
    have hstep : 0 < FREQ_STEP := by decide
    have hnewlt : s.currentTestFreq < s.currentTestFreq + FREQ_STEP := Nat.lt_add_of_pos_right hstep
    have hboundold : ∀ p ∈ s.curve,
        p.1 < s.currentTestFreq + FREQ_STEP ∧ p.1 ≤ s.endFreq :=
      fun p hp => ⟨lt_trans (hltcurr p hp).1 hnewlt, (hltcurr p hp).2⟩
    have hstartnew : s.startFreq ≤ s.currentTestFreq + FREQ_STEP :=
      le_trans hstartcurr (Nat.le_add_right _ _)
    have happly : ∀ q : ℚ,
        List.Chain' (fun x y => x < y) ((s.curve ++ [(s.currentTestFreq, q)]).map Prod.fst) := by
      intro q
      rw [List.map_append]
      apply List.Chain'.append hchain (List.chain'_singleton _)
      intro x hx y hy
      simp only [List.head?_cons, List.map_cons, List.map_nil, Option.mem_def,
        Option.some_inj] at hy
      subst hy
      have hx2 : x ∈ s.curve.map Prod.fst := by
        cases hmem : (s.curve.map Prod.fst).getLast? with
        | none => simp [hmem] at hx
        | some z =>
          rw [hmem] at hx
          simp only [Option.mem_def, Option.some_inj] at hx
          subst hx
          obtain ⟨hne2, hxe⟩ := List.mem_getLast?_eq_getLast hmem
          rw [hxe]
          exact List.getLast_mem hne2
      obtain ⟨p, hp, hpx⟩ := List.mem_map.mp hx2
      rw [← hpx]
      exact (hltcurr p hp).1
    have hboundnew : ∀ q : ℚ, ∀ p ∈ s.curve ++ [(s.currentTestFreq, q)],
        p.1 < s.currentTestFreq + FREQ_STEP ∧ p.1 ≤ s.endFreq := by
      intro q p hp
      rcases List.mem_append.mp hp with h | h
      · exact hboundold p h
      · rw [List.mem_singleton] at h
        subst h
        exact ⟨hnewlt, hend⟩
    by_cases hup : avgIpk env s.burstCount SAMPLES_PER_FREQ > s.maxAmplitude
    · rw [if_pos hup]
      dsimp only
      by_cases hst : s.curve.length < MAX_DATA_POINTS ∧
          (s.stepIndex % s.storeEvery = 0 ∨ s.curve.length = 0 ∨
            s.currentTestFreq ≥ s.endFreq)
      · rw [if_pos hst]
        refine ⟨?_, happly _, hlog, hswe, hcen, hse, ?_⟩
        · simp only [List.length_append, List.length_singleton]
          omega
        · intro _
          exact ⟨hboundnew _, Or.inr ⟨hstartcurr, hend⟩, hstartnew⟩
      · rw [if_neg hst]
        refine ⟨hlen, hchain, hlog, hswe, hcen, hse, ?_⟩
        intro _
        exact ⟨hboundold, Or.inr ⟨hstartcurr, hend⟩, hstartnew⟩
    · rw [if_neg hup]
      dsimp only
      by_cases hst : s.curve.length < MAX_DATA_POINTS ∧
          (s.stepIndex % s.storeEvery = 0 ∨ s.curve.length = 0 ∨
            s.currentTestFreq ≥ s.endFreq)
      · rw [if_pos hst]
        refine ⟨?_, happly _, hlog, hswe, hcen, hse, ?_⟩
        · simp only [List.length_append, List.length_singleton]
          omega
        · intro _
          exact ⟨hboundnew _, hres, hstartnew⟩
      · rw [if_neg hst]
        refine ⟨hlen, hchain, hlog, hswe, hcen, hse, ?_⟩
        intro _
        exact ⟨hboundold, hres, hstartnew⟩

theorem inv_tick (env : ℕ → Meas) (s : SweepState) (hInv : Inv s) : Inv (tick env s) := by
  unfold tick
  by_cases hrun : s.testRunning = true
  case neg =>
    rw [if_neg hrun]
    exact hInv
  rw [if_pos hrun]
  by_cases hc : s.coarsePhase = true
  · rw [if_pos hc]
    exact inv_processCoarse env s hc hInv
  · rw [if_neg hc]
    have hcf : s.coarsePhase = false := by
      revert hc
      cases s.coarsePhase <;> simp
    by_cases hf : s.finePhase = true
    · rw [if_pos hf]
      exact inv_processFine env s hcf hInv
    · rw [if_neg hf]
      exact hInv

theorem inv_init (a b : ℕ) : Inv (startTwoPassTest a b) := by
  refine ⟨?_, ?_, ?_, ?_, ?_, ?_, ?_⟩ <;>
    simp [startTwoPassTest, Inv, MAX_DATA_POINTS]

theorem inv_run (env : ℕ → Meas) (n : ℕ) :
    ∀ s : SweepState, Inv s → Inv (run env n s) := by
  induction n with
  | zero => exact fun s h => h
  | succ m ih =>
    intro s h
    rw [run_succ]
    exact ih (tick env s) (inv_tick env s h)

theorem prepare_startFreq (s : SweepState) :
    (prepareFineTargets s).startFreq = s.startFreq := by
  obtain ⟨ts, h⟩ := prepare_shape s
  rw [h]

theorem prepare_endFreq (s : SweepState) :
    (prepareFineTargets s).endFreq = s.endFreq := by
  obtain ⟨ts, h⟩ := prepare_shape s
  rw [h]

theorem prepare_storeEvery (s : SweepState) :
    (prepareFineTargets s).storeEvery = s.storeEvery := by
  obtain ⟨ts, h⟩ := prepare_shape s
  rw [h]

theorem harmCoarse_startFreq (s : SweepState) :
    (computeBestHarmonicFromCoarse s).startFreq = s.startFreq := by
  obtain ⟨f, a, h⟩ := harmCoarse_shape s
  rw [h]

theorem harmCoarse_endFreq (s : SweepState) :
    (computeBestHarmonicFromCoarse s).endFreq = s.endFreq := by
  obtain ⟨f, a, h⟩ := harmCoarse_shape s
  rw [h]

theorem harmCoarse_storeEvery (s : SweepState) :
    (computeBestHarmonicFromCoarse s).storeEvery = s.storeEvery := by
  obtain ⟨f, a, h⟩ := harmCoarse_shape s
  rw [h]

theorem harmFine_startFreq (s : SweepState) :
    (computeBestHarmonicFromFine s).startFreq = s.startFreq := by
  obtain ⟨f, a, h⟩ := harmFine_shape s
  rw [h]

theorem harmFine_endFreq (s : SweepState) :
    (computeBestHarmonicFromFine s).endFreq = s.endFreq := by
  obtain ⟨f, a, h⟩ := harmFine_shape s
  rw [h]

theorem harmFine_storeEvery (s : SweepState) :
    (computeBestHarmonicFromFine s).storeEvery = s.storeEvery := by
  obtain ⟨f, a, h⟩ := harmFine_shape s
  rw [h]

theorem startFineTarget_startFreq (s : SweepState) (i : ℕ) :
    (startFineTarget s i).startFreq = s.startFreq := by
  obtain ⟨fr, fe, st, ts, lg, h⟩ := startFineTarget_shape s i
  rw [h]

theorem startFineTarget_endFreq (s : SweepState) (i : ℕ) :
    (startFineTarget s i).endFreq = s.endFreq := by
  obtain ⟨fr, fe, st, ts, lg, h⟩ := startFineTarget_shape s i
  rw [h]

theorem startFineTarget_storeEvery (s : SweepState) (i : ℕ) :
    (startFineTarget s i).storeEvery = s.storeEvery := by
  obtain ⟨fr, fe, st, ts, lg, h⟩ := startFineTarget_shape s i
  rw [h]

theorem processCoarse_const (env : ℕ → Meas) (s : SweepState) :
    (processCoarseSweep env s).startFreq = s.startFreq ∧
    (processCoarseSweep env s).endFreq = s.endFreq ∧
    (processCoarseSweep env s).storeEvery = s.storeEvery := by
  unfold processCoarseSweep
  dsimp only
  split_ifs <;>
    first
      | exact ⟨rfl, rfl, rfl⟩
      | (refine ⟨?_, ?_, ?_⟩ <;>
          simp only [prepare_startFreq, prepare_endFreq, prepare_storeEvery,
            startFineTarget_startFreq, startFineTarget_endFreq, startFineTarget_storeEvery,
            harmCoarse_startFreq, harmCoarse_endFreq, harmCoarse_storeEvery])

theorem processFine_const (env : ℕ → Meas) (s : SweepState) :
    (processFineSweep env s).startFreq = s.startFreq ∧
    (processFineSweep env s).endFreq = s.endFreq ∧
    (processFineSweep env s).storeEvery = s.storeEvery := by
  unfold processFineSweep
  dsimp only
  split_ifs <;>
    first
      | exact ⟨rfl, rfl, rfl⟩
      | (refine ⟨?_, ?_, ?_⟩ <;>
          simp only [startFineTarget_startFreq, startFineTarget_endFreq,
            startFineTarget_storeEvery, harmFine_startFreq, harmFine_endFreq,
            harmFine_storeEvery])

theorem tick_const (env : ℕ → Meas) (s : SweepState) :
    (tick env s).startFreq = s.startFreq ∧ (tick env s).endFreq = s.endFreq ∧
    (tick env s).storeEvery = s.storeEvery := by
  unfold tick
  split_ifs with hrun hc hf
  · exact processCoarse_const env s
  · exact processFine_const env s
  · exact ⟨rfl, rfl, rfl⟩
  · exact ⟨rfl, rfl, rfl⟩

theorem run_const (env : ℕ → Meas) (n : ℕ) :
    ∀ s : SweepState, (run env n s).startFreq = s.startFreq ∧
      (run env n s).endFreq = s.endFreq ∧ (run env n s).storeEvery = s.storeEvery := by
  induction n with
  | zero => exact fun s => ⟨rfl, rfl, rfl⟩
  | succ m ih =>
    intro s
    rw [run_succ]
    obtain ⟨i1, i2, i3⟩ := ih (tick env s)
    obtain ⟨t1, t2, t3⟩ := tick_const env s
    exact ⟨i1.trans t1, i2.trans t2, i3.trans t3⟩

/-- Claim C6: throughout every sweep, the stored coarse curve is strictly
increasing in frequency and its length never exceeds `MAX_DATA_POINTS`;
the decimation stride `storeEvery` is fixed at the value computed by
`startTwoPassTest` (the ceiling of `totalSteps / MAX_DATA_POINTS`) and is
always at least 1. -/
theorem scanner_C6_theorem (env : ℕ → Meas) (a b n : ℕ) :
    (run env n (startTwoPassTest a b)).curve.length ≤ MAX_DATA_POINTS ∧
    List.Chain' (fun x y => x < y)
      ((run env n (startTwoPassTest a b)).curve.map Prod.fst) ∧
    (run env n (startTwoPassTest a b)).storeEvery = (startTwoPassTest a b).storeEvery ∧
    1 ≤ (run env n (startTwoPassTest a b)).storeEvery := by
  obtain ⟨hlen, hchain, _⟩ := inv_run env n (startTwoPassTest a b) (inv_init a b)
  obtain ⟨_, _, hst⟩ := run_const env n (startTwoPassTest a b)
  refine ⟨hlen, hchain, hst, ?_⟩
  rw [hst]
  simp only [startTwoPassTest]
  split_ifs <;> omega

/-- Claim C2 amended: the fine window's upper end is clamped to `endFreq`
(every frequency the fine phase hands to the generator is at most the band
end), but its lower end is `center - FINE_WINDOW` whenever
`center > FINE_WINDOW` — the guard only prevents unsigned underflow, so
the lower end may lie below `startFreq`; only for `center ≤ FINE_WINDOW`
is `startFreq` used instead. -/
theorem scanner_C2_theorem (s : SweepState) (i : ℕ) (hi : i < s.fineTargets.length)
    (env : ℕ → Meas) (a b n : ℕ) (f : ℕ)
    (hf : f ∈ (run env n (startTwoPassTest a b)).fineSetLog) :
    (startFineTarget s i).fineSweepEnd =
      (if (s.fineTargets.getD i ⟨0, 0, 0, false⟩).center + FINE_WINDOW > s.endFreq
       then s.endFreq
       else (s.fineTargets.getD i ⟨0, 0, 0, false⟩).center + FINE_WINDOW) ∧
    (startFineTarget s i).fineSweepFreq =
      (if (s.fineTargets.getD i ⟨0, 0, 0, false⟩).center > FINE_WINDOW
       then (s.fineTargets.getD i ⟨0, 0, 0, false⟩).center - FINE_WINDOW
       else s.startFreq) ∧
    f ≤ b := by
  refine ⟨?_, ?_, ?_⟩
  · unfold startFineTarget
    rw [if_pos hi]
  · unfold startFineTarget
    rw [if_pos hi]
  · obtain ⟨_, _, hlog, _⟩ := inv_run env n (startTwoPassTest a b) (inv_init a b)
    have hb := (run_const env n (startTwoPassTest a b)).2.1
    have := hlog f hf
    rw [hb] at this
    exact this

/-- Claim C2 witness: the window formulas at target 0 of `sC3`
(centre 100 ≤ `FINE_WINDOW`, so the lower end falls back to `startFreq`),
and the bound on the concrete fine-phase generator log of the
[2000, 2100] sweep, whose only entry so far is 1000 ≤ 2100. -/
theorem scanner_C2_witness :
    0 < sC3.fineTargets.length ∧
    (1000 : ℕ) ∈ (run envPeakFirst 4 (startTwoPassTest 2000 2100)).fineSetLog ∧
    ((startFineTarget sC3 0).fineSweepEnd =
      (if (sC3.fineTargets.getD 0 ⟨0, 0, 0, false⟩).center + FINE_WINDOW > sC3.endFreq
       then sC3.endFreq
       else (sC3.fineTargets.getD 0 ⟨0, 0, 0, false⟩).center + FINE_WINDOW) ∧
     (startFineTarget sC3 0).fineSweepFreq =
      (if (sC3.fineTargets.getD 0 ⟨0, 0, 0, false⟩).center > FINE_WINDOW
       then (sC3.fineTargets.getD 0 ⟨0, 0, 0, false⟩).center - FINE_WINDOW
       else sC3.startFreq) ∧
     (1000 : ℕ) ≤ 2100) :=
  ⟨by decide, by with_unfolding_all decide,
    scanner_C2_theorem sC3 0 (by decide) envPeakFirst 2000 2100 4 1000
      (by with_unfolding_all decide)⟩

theorem round_lt_two (x : ℚ) (h : x < 3 / 2) : round x < 2 := by
  rw [round_eq]
  have h2 : x + 1 / 2 < ((2 : ℤ) : ℚ) := by push_cast; linarith
  exact Int.floor_lt.mpr h2

theorem ratio_window (resF f : ℕ) (h6 : 600 ≤ resF)
    (hw : |(f : ℤ) - (resF : ℤ)| ≤ ((FREQ_STEP * 3 : ℕ) : ℤ)) :
    round ((f : ℚ) / (resF : ℚ)) < 2 ∧ round ((resF : ℚ) / (f : ℚ)) < 2 := by
  rw [abs_le] at hw
  obtain ⟨hw1, hw2⟩ := hw
  rw [show ((FREQ_STEP * 3 : ℕ) : ℤ) = 150 from by decide] at hw1 hw2
  have hfu : f ≤ resF + 150 := by omega
  have hfl : resF ≤ f + 150 := by omega
  have hf450 : 450 ≤ f := by omega
  have hrQ : (0 : ℚ) < (resF : ℚ) := by exact_mod_cast (by omega : 0 < resF)
  have hfQ : (0 : ℚ) < (f : ℚ) := by exact_mod_cast (by omega : 0 < f)
  have hfuQ : (f : ℚ) ≤ (resF : ℚ) + 150 := by exact_mod_cast hfu
  have hflQ : (resF : ℚ) ≤ (f : ℚ) + 150 := by exact_mod_cast hfl
  have h600 : (600 : ℚ) ≤ (resF : ℚ) := by exact_mod_cast h6
  have hf450Q : (450 : ℚ) ≤ (f : ℚ) := by exact_mod_cast hf450
  constructor
  · apply round_lt_two
    rw [div_lt_iff hrQ]
    linarith
  · apply round_lt_two
    rw [div_lt_iff hfQ]
    linarith

theorem coarseRatioStep_cases (resF : ℕ) (tol : ℚ) (acc : ℕ × ℚ) (f : ℕ) (a : ℚ) :
    coarseRatioStep resF tol acc (f, a) = acc ∨
      (coarseRatioStep resF tol acc (f, a) = (f, a) ∧
        (2 ≤ round ((f : ℚ) / (resF : ℚ)) ∨ 2 ≤ round ((resF : ℚ) / (f : ℚ)))) := by
  unfold coarseRatioStep
  dsimp only
  split_ifs with h1 h2 h3
  · exact Or.inr ⟨rfl, Or.inl h1.1⟩
  · exact Or.inr ⟨rfl, Or.inl h1.1⟩
  · exact Or.inr ⟨rfl, Or.inr h3.1⟩
  · exact Or.inl rfl

theorem coarseFold_window (resF : ℕ) (h6 : 600 ≤ resF) (tol : ℚ) (l : List Peak) :
    ∀ acc : ℕ × ℚ,
      (acc.1 = 0 ∨ ((FREQ_STEP * 3 : ℕ) : ℤ) < |(acc.1 : ℤ) - (resF : ℤ)|) →
      ((l.foldl (fun acc pk => coarseRatioStep resF tol acc (pk.f, pk.amp)) acc).1 = 0 ∨
        ((FREQ_STEP * 3 : ℕ) : ℤ) <
          |((l.foldl (fun acc pk => coarseRatioStep resF tol acc (pk.f, pk.amp)) acc).1 : ℤ) -
            (resF : ℤ)|) := by
  induction l with
  | nil => exact fun acc h => h
  | cons pk ps ih =>
    intro acc h
    rw [List.foldl_cons]
    apply ih
    rcases coarseRatioStep_cases resF tol acc pk.f pk.amp with he | ⟨he, hr⟩
    · rw [he]
      exact h
    · rw [he]
      right
      dsimp only
      by_contra hcon
      push_neg at hcon
      have hrw := ratio_window resF pk.f h6 hcon
      rcases hr with h2 | h2 <;> omega

theorem coarseFallback_window (resF : ℕ) (l : List (ℕ × ℚ)) :
    ∀ acc : ℕ × ℚ,
      (acc.1 = 0 ∨ ((FREQ_STEP * 3 : ℕ) : ℤ) < |(acc.1 : ℤ) - (resF : ℤ)|) →
      ((l.foldl (fun (acc : ℕ × ℚ) pt =>
          if (pt.1 > resF + FREQ_STEP * 3 ∨ pt.1 + FREQ_STEP * 3 < resF) ∧ pt.2 > acc.2
          then (pt.1, pt.2) else acc) acc).1 = 0 ∨
        ((FREQ_STEP * 3 : ℕ) : ℤ) <
          |((l.foldl (fun (acc : ℕ × ℚ) pt =>
              if (pt.1 > resF + FREQ_STEP * 3 ∨ pt.1 + FREQ_STEP * 3 < resF) ∧ pt.2 > acc.2
              then (pt.1, pt.2) else acc) acc).1 : ℤ) - (resF : ℤ)|) := by
  induction l with
  | nil => exact fun acc h => h
  | cons pt ps ih =>
    intro acc h
    rw [List.foldl_cons]
    apply ih
    split_ifs with hc
    · right
      dsimp only
      rw [show ((FREQ_STEP * 3 : ℕ) : ℤ) = 150 from by decide, lt_abs]
      have h150 : FREQ_STEP * 3 = 150 := rfl
      rw [h150] at hc
      rcases hc.1 with h2 | h2 <;> omega
    · exact h

theorem harmCoarse_window (s : SweepState) (h6 : 600 ≤ s.resonantFreq) :
    (computeBestHarmonicFromCoarse s).bestHarmFreq = 0 ∨
      (((FREQ_STEP * 3 : ℕ) : ℤ) <
          |((computeBestHarmonicFromCoarse s).bestHarmFreq : ℤ) - (s.resonantFreq : ℤ)| ∧
        (computeBestHarmonicFromCoarse s).bestHarmFreq ≠ s.resonantFreq) := by
  have hne : ∀ x : ℕ,
      ((FREQ_STEP * 3 : ℕ) : ℤ) < |(x : ℤ) - (s.resonantFreq : ℤ)| → x ≠ s.resonantFreq := by
    intro x hx heq
    rw [heq] at hx
    simp only [sub_self, abs_zero] at hx
    exact absurd hx (by decide)
  unfold computeBestHarmonicFromCoarse
  dsimp only
  by_cases h1 : s.resonantFreq = 0 ∨ s.curve.length < 3
  · rw [if_pos h1]
    exact Or.inl rfl
  rw [if_neg h1]
  set M := if s.maxAmplitude * (12 / 100) < 1 / 100 then (1 : ℚ) / 100
    else s.maxAmplitude * (12 / 100) with hM
  split_ifs with h2 h3
  · rcases coarseFallback_window s.resonantFreq s.curve (0, 0) (Or.inl rfl) with hz | hw
    · exact absurd hz h3
    · exact Or.inr ⟨hw, hne _ hw⟩
  · exact Or.inl h2
  · rcases coarseFold_window s.resonantFreq h6 (12 / 100)
        (detectPeaks s.curve M) (0, 0) (Or.inl rfl) with hz | hw
    · exact absurd hz h2
    · exact Or.inr ⟨hw, hne _ hw⟩

theorem fineFold_window (resF : ℕ) (l : List FineTarget) :
    ∀ acc : ℕ × ℚ,
      (acc.1 = 0 ∨ (FINE_STEP : ℤ) < |(acc.1 : ℤ) - (resF : ℤ)|) →
      ((l.foldl (fineHarmStep resF) acc).1 = 0 ∨
        (FINE_STEP : ℤ) < |((l.foldl (fineHarmStep resF) acc).1 : ℤ) - (resF : ℤ)|) := by
  induction l with
  | nil => exact fun acc h => h
  | cons t ts ih =>
    intro acc h
    rw [List.foldl_cons, fineHarmStep_spec]
    apply ih
    split_ifs with hc
    · right
      dsimp only
      exact lt_of_not_le hc.2.1
    · exact h

theorem harmFine_window (s : SweepState) (h6 : 600 ≤ s.resonantFreq) :
    (computeBestHarmonicFromFine s).bestHarmFreq = 0 ∨
      ((FINE_STEP : ℤ) <
          |((computeBestHarmonicFromFine s).bestHarmFreq : ℤ) - (s.resonantFreq : ℤ)| ∧
        (computeBestHarmonicFromFine s).bestHarmFreq ≠ s.resonantFreq) := by
  unfold computeBestHarmonicFromFine
  dsimp only
  split_ifs with h1 h2
  · exact Or.inl rfl
  · show (computeBestHarmonicFromCoarse s).bestHarmFreq = 0 ∨
        ((FINE_STEP : ℤ) <
            |((computeBestHarmonicFromCoarse s).bestHarmFreq : ℤ) - (s.resonantFreq : ℤ)| ∧
          (computeBestHarmonicFromCoarse s).bestHarmFreq ≠ s.resonantFreq)
    rcases harmCoarse_window s h6 with hz | ⟨hw, hne⟩
    · exact Or.inl hz
    · refine Or.inr ⟨?_, hne⟩
      rw [show ((FREQ_STEP * 3 : ℕ) : ℤ) = 150 from by decide] at hw
      rw [show (FINE_STEP : ℤ) = 10 from by decide]
      omega
  · dsimp only
    rcases fineFold_window s.resonantFreq s.fineTargets (0, 0) (Or.inl rfl) with hz | hw
    · exact absurd hz h2
    · refine Or.inr ⟨hw, ?_⟩
      intro heq
      rw [heq] at hw
      simp only [sub_self, abs_zero] at hw
      exact absurd hw (by decide)

/-- Claim C4 amended: for any fundamental of at least 600 Hz (every
supported band starts at 20 kHz, far above this), harmonic classification
never reports a frequency equal to the fundamental or inside the relevant
exclusion window around it: the coarse classifier stays more than
`FREQ_STEP * 3` away and the fine classifier (with its coarse fallback)
more than `FINE_STEP` away.  For smaller fundamentals the coarse ratio
branch applies no exclusion window at all (see the counterexample). -/
theorem scanner_C4_theorem (s : SweepState) (h6 : 600 ≤ s.resonantFreq) :
    ((computeBestHarmonicFromCoarse s).bestHarmFreq = 0 ∨
      (((FREQ_STEP * 3 : ℕ) : ℤ) <
          |((computeBestHarmonicFromCoarse s).bestHarmFreq : ℤ) - (s.resonantFreq : ℤ)| ∧
        (computeBestHarmonicFromCoarse s).bestHarmFreq ≠ s.resonantFreq)) ∧
    ((computeBestHarmonicFromFine s).bestHarmFreq = 0 ∨
      ((FINE_STEP : ℤ) <
          |((computeBestHarmonicFromFine s).bestHarmFreq : ℤ) - (s.resonantFreq : ℤ)| ∧
        (computeBestHarmonicFromFine s).bestHarmFreq ≠ s.resonantFreq)) :=
  ⟨harmCoarse_window s h6, harmFine_window s h6⟩

/-- Claim C4 witness: the amended exclusion-window property applied to the
concrete state `sW` with fundamental 700 Hz. -/
theorem scanner_C4_witness :
    600 ≤ sW.resonantFreq ∧
    (((computeBestHarmonicFromCoarse sW).bestHarmFreq = 0 ∨
      (((FREQ_STEP * 3 : ℕ) : ℤ) <
          |((computeBestHarmonicFromCoarse sW).bestHarmFreq : ℤ) - (sW.resonantFreq : ℤ)| ∧
        (computeBestHarmonicFromCoarse sW).bestHarmFreq ≠ sW.resonantFreq)) ∧
     ((computeBestHarmonicFromFine sW).bestHarmFreq = 0 ∨
      ((FINE_STEP : ℤ) <
          |((computeBestHarmonicFromFine sW).bestHarmFreq : ℤ) - (sW.resonantFreq : ℤ)| ∧
        (computeBestHarmonicFromFine sW).bestHarmFreq ≠ sW.resonantFreq))) :=
  ⟨by decide, scanner_C4_theorem sW (by decide)⟩

end UTS
